import Mathlib

/-!
# Verification of `estimate_coding_time.py`

Shallow embedding of the coding-time estimation script: a git-log text parser
producing commit records, a gap-threshold session grouper, a per-session linear
time estimator, and the report produced by `main`.  Timestamps are modelled as
integer epoch seconds; the script's floating-point minute arithmetic is modelled
exactly over the rationals.
-/

set_option autoImplicit false

namespace EstimateCodingTime

/-- A parsed commit: epoch timestamp in seconds, commit hash, and the total of
added plus removed lines over all files of the commit (source `get_git_commit_data`,
which stores `datetime.fromtimestamp(epoch)`, `hash`, `lines_changed`). -/
structure CommitRecord where
  timestamp : Int
  hash : String
  lines_changed : Nat
deriving DecidableEq, Repr

/-- `MAX_GAP_MINUTES = 90` from the source configuration block. -/
def MAX_GAP_MINUTES : ℚ := 90

/-- `TIME_PER_LINE_MINUTES = 0.02` from the source configuration block. -/
def TIME_PER_LINE_MINUTES : ℚ := 0.02

/-- `PRE_COMMIT_LINE_FACTOR = 1` from the source configuration block. -/
def PRE_COMMIT_LINE_FACTOR : ℚ := 1

/-! ## History extractor: parsing the git log text

The source builds the commit list by scanning the lines of
`git log --reverse --pretty=format:%ct %H --numstat` output.  We model the
scan over an already-split list of lines (the subprocess call itself is the
external boundary). -/

/-- The character class of the regex `\s` (ASCII subset), also used to model
Python's `str.strip`. -/
def isPySpace (c : Char) : Bool :=
  c = ' ' || c = '\t' || c = '\n' || c = '\x0d' || c = '\x0b' || c = '\x0c'

/-- Lowercase hexadecimal digit, the character class `[0-9a-f]` of
`time_hash_pattern`. -/
def isHexLower (c : Char) : Bool :=
  c.isDigit || ('a' ≤ c && c ≤ 'f')

/-- Numeric value of a decimal digit string, as Python `int` on a digit string. -/
def digitsVal (ds : List Char) : Nat :=
  ds.foldl (fun n c => 10 * n + (c.toNat - '0'.toNat)) 0

/-- Python `line.strip()` on the character list (ASCII whitespace). -/
def pyStrip (cs : List Char) : List Char :=
  ((cs.dropWhile isPySpace).reverse.dropWhile isPySpace).reverse

/-- Python `s.isdigit()` (ASCII): non-empty and all decimal digits. -/
def pyIsDigit (cs : List Char) : Bool :=
  !cs.isEmpty && cs.all Char.isDigit

/-- Python `s.split(sep)` for a single-character separator: split at every
occurrence, keeping empty fields. -/
def pySplitChar (sep : Char) : List Char → List (List Char)
  | [] => [[]]
  | c :: cs =>
    if c = sep then [] :: pySplitChar sep cs
    else
      match pySplitChar sep cs with
      | [] => [[c]]
      | p :: ps => (c :: p) :: ps

/-- `re.match` of `time_hash_pattern = ^(\d+)\s+([0-9a-f]+)$` on a line (which,
coming from a `split('\n')`, contains no newline): the two captured groups, or
`none` when the line does not match. -/
def matchTimeHash (line : String) : Option (Nat × String) :=
  let cs := line.toList
  let ds := cs.takeWhile Char.isDigit
  let rest1 := cs.dropWhile Char.isDigit
  if ds.isEmpty then none
  else
    let sp := rest1.takeWhile isPySpace
    let rest2 := rest1.dropWhile isPySpace
    if sp.isEmpty then none
    else if !rest2.isEmpty && rest2.all isHexLower then
      some (digitsVal ds, String.mk rest2)
    else none

/-- The numstat branch of the scan (source lines 53-63): strip the line, split
on tabs; with exactly three fields, each field contributes its integer value
when it `isdigit`, else zero; otherwise the line is ignored (`none`). -/
def lineContribution (line : String) : Option Nat :=
  match pySplitChar '\t' (pyStrip line.toList) with
  | [added_str, removed_str, _] =>
    let added := if pyIsDigit added_str then digitsVal added_str else 0
    let removed := if pyIsDigit removed_str then digitsVal removed_str else 0
    some (added + removed)
  | _ => none

/-- The line scan of `get_git_commit_data`: a line matching the time-hash
pattern starts a new record; otherwise a three-field numstat line adds to the
current record when one exists; anything else is ignored.  The Python mutates
the record already appended to `commits`; we keep the in-progress record
separate and flush it when a new record starts and at the end. -/
def scanLines : List String → List CommitRecord → Option CommitRecord → List CommitRecord
  | [], done, cur => done ++ cur.toList
  | line :: rest, done, cur =>
    match matchTimeHash line with
    | some (epoch, h) =>
      scanLines rest (done ++ cur.toList) (some ⟨(epoch : Int), h, 0⟩)
    | none =>
      match cur, lineContribution line with
      | some c, some n =>
        scanLines rest done (some { c with lines_changed := c.lines_changed + n })
      | _, _ => scanLines rest done cur

/-- `get_git_commit_data` modulo the external `git` invocation: parse the
output lines into the chronological commit list. -/
def get_git_commit_data (lines : List String) : List CommitRecord :=
  scanLines lines [] none

/-! ## Session grouper -/

/-- `(commit['timestamp'] - prev_commit['timestamp']).total_seconds() / 60.0`:
the signed gap from `prev` to `c` in minutes. -/
def timeDiffMinutes (prev c : CommitRecord) : ℚ :=
  ((c.timestamp - prev.timestamp : Int) : ℚ) / 60

/-- The loop of `group_commits_into_sessions` after the first commit seeded the
current session: `prev` is the previously processed commit, `current` the
in-progress session, `sessions` the closed sessions.  The trailing
`if current_session:` guard of the source is the emptiness test in the base
case. -/
def groupAux (prev : CommitRecord) (current : List CommitRecord)
    (sessions : List (List CommitRecord)) :
    List CommitRecord → List (List CommitRecord)
  | [] => if current.isEmpty then sessions else sessions ++ [current]
  | c :: rest =>
    if timeDiffMinutes prev c ≤ MAX_GAP_MINUTES then
      groupAux c (current ++ [c]) sessions rest
    else
      groupAux c [c] (sessions ++ [current]) rest

/-- `group_commits_into_sessions`: partition the chronological commit list into
sessions, starting a new session whenever the gap to the previous commit
exceeds `MAX_GAP_MINUTES`. -/
def group_commits_into_sessions : List CommitRecord → List (List CommitRecord)
  | [] => []
  | c :: rest => groupAux c [c] [] rest

/-! ## Time estimator -/

/-- `estimate_session_time`: minutes from first to last commit of the session
plus the pre-commit buffer proportional to the first commit's lines; `0` on an
empty session (the `if not session` guard). -/
def estimate_session_time : List CommitRecord → ℚ
  | [] => 0
  | first :: rest =>
    let last := (first :: rest).getLast (List.cons_ne_nil first rest)
    let direct_time_minutes := ((last.timestamp - first.timestamp : Int) : ℚ) / 60
    let pre_commit_estimate :=
      (first.lines_changed : ℚ) * TIME_PER_LINE_MINUTES * PRE_COMMIT_LINE_FACTOR
    direct_time_minutes + pre_commit_estimate

/-! ## Reporting (`main`) -/

/-- One line printed by `main`, with the numeric payloads kept symbolic (the
`.1f` rendering is presentation). -/
inductive OutputLine where
  | gathering
  | noData
  | found (n : Nat)
  | grouped (n : Nat)
  | sessionLine (index count : Nat) (minutes : ℚ)
  | summaryHeader
  | totalHours (hours : ℚ)
deriving DecidableEq, Repr

/-- The session loop of `main`: 1-indexed enumeration, accumulating
`total_minutes` and emitting one line per session. -/
def sessionReport (i : Nat) (total : ℚ) :
    List (List CommitRecord) → List OutputLine × ℚ
  | [] => ([], total)
  | s :: ss =>
    let session_time := estimate_session_time s
    let r := sessionReport (i + 1) (total + session_time) ss
    (OutputLine.sessionLine i s.length session_time :: r.1, r.2)

/-- `main` as a function from the extracted commit list to the printed report:
the early exit on an empty list, else the counts, the per-session lines, and
the summary with `hours = total_minutes / 60.0`. -/
def main (commits : List CommitRecord) : List OutputLine :=
  OutputLine.gathering ::
  if commits.isEmpty then [OutputLine.noData]
  else
    OutputLine.found commits.length ::
      OutputLine.grouped (group_commits_into_sessions commits).length ::
      (sessionReport 1 0 (group_commits_into_sessions commits)).1 ++
        [OutputLine.summaryHeader,
          OutputLine.totalHours
            ((sessionReport 1 0 (group_commits_into_sessions commits)).2 / 60)]

end EstimateCodingTime

namespace EstimateCodingTime

/-! ## Predicates used to state the session invariants -/

/-- The in-session condition of the grouping loop: the gap from `a` to the next
commit `b` is at most the threshold. -/
def withinGapOK (a b : CommitRecord) : Prop :=
  timeDiffMinutes a b ≤ MAX_GAP_MINUTES

instance : DecidableRel withinGapOK := fun a b =>
  inferInstanceAs (Decidable (timeDiffMinutes a b ≤ MAX_GAP_MINUTES))

/-- The between-session condition on the optional last commit of one session
and first commit of the next: when both exist, their gap strictly exceeds the
threshold. -/
def breakAfter : Option CommitRecord → Option CommitRecord → Prop
  | some a, some b => MAX_GAP_MINUTES < timeDiffMinutes a b
  | some _, none => True
  | none, some _ => True
  | none, none => True

instance : (o p : Option CommitRecord) → Decidable (breakAfter o p)
  | some a, some b => inferInstanceAs (Decidable (MAX_GAP_MINUTES < timeDiffMinutes a b))
  | some _, none => inferInstanceAs (Decidable True)
  | none, some _ => inferInstanceAs (Decidable True)
  | none, none => inferInstanceAs (Decidable True)

/-- The gap from the last commit of session `s` to the first commit of the next
session `t` strictly exceeds the threshold. -/
def sessionBreakOK (s t : List CommitRecord) : Prop :=
  breakAfter s.getLast? t.head?

instance : DecidableRel sessionBreakOK := fun s t =>
  inferInstanceAs (Decidable (breakAfter s.getLast? t.head?))

/-- Prepend extra commits onto the first session of a session list (used only
to state how the grouper acts on a list extended at the front). -/
def prependFirst (x : List CommitRecord) : List (List CommitRecord) → List (List CommitRecord)
  | [] => [x]
  | s :: ss => (x ++ s) :: ss

/-! ## Helper lemmas about the grouping loop -/

lemma head?_append_of_ne_nil {α : Type} (l l' : List α) (h : l ≠ []) :
    (l ++ l').head? = l.head? := by
  cases l with
  | nil => exact absurd rfl h
  | cons x xs => rfl

/-- The accumulator of closed sessions only ever receives appends, so it can be
factored out of the loop. -/
lemma groupAux_acc :
    ∀ (rest : List CommitRecord) (prev : CommitRecord) (current : List CommitRecord)
      (sessions : List (List CommitRecord)),
      groupAux prev current sessions rest = sessions ++ groupAux prev current [] rest := by
  intro rest
  induction rest with
  | nil =>
    intro prev current sessions
    by_cases h : current.isEmpty <;> simp [groupAux, h]
  | cons c rest ih =>
    intro prev current sessions
    by_cases h : timeDiffMinutes prev c ≤ MAX_GAP_MINUTES
    · simp only [groupAux, if_pos h]
      exact ih c (current ++ [c]) sessions
    · simp only [groupAux, if_neg h]
      rw [ih c [c] (sessions ++ [current]), ih c [c] ([] ++ [current])]
      simp [List.append_assoc]

/-- Concatenating what the loop returns yields the closed sessions, the current
session, and the unprocessed remainder, in order. -/
lemma groupAux_join :
    ∀ (rest : List CommitRecord) (prev : CommitRecord) (current : List CommitRecord)
      (sessions : List (List CommitRecord)), current ≠ [] →
      (groupAux prev current sessions rest).flatten = sessions.flatten ++ current ++ rest := by
  intro rest
  induction rest with
  | nil =>
    intro prev current sessions hcur
    cases current with
    | nil => exact absurd rfl hcur
    | cons a l => simp [groupAux]
  | cons c rest ih =>
    intro prev current sessions hcur
    by_cases h : timeDiffMinutes prev c ≤ MAX_GAP_MINUTES
    · simp only [groupAux, if_pos h]
      rw [ih c (current ++ [c]) sessions (by simp)]
      simp
    · simp only [groupAux, if_neg h]
      rw [ih c [c] (sessions ++ [current]) (by simp)]
      simp

/-- No session returned by the loop is empty. -/
lemma groupAux_ne_nil :
    ∀ (rest : List CommitRecord) (prev : CommitRecord) (current : List CommitRecord)
      (sessions : List (List CommitRecord)), current ≠ [] →
      (∀ s ∈ sessions, s ≠ []) →
      ∀ s ∈ groupAux prev current sessions rest, s ≠ [] := by
  intro rest
  induction rest with
  | nil =>
    intro prev current sessions hcur hsess s hs
    cases current with
    | nil => exact absurd rfl hcur
    | cons a l =>
      simp only [groupAux, List.isEmpty_cons, Bool.false_eq_true, if_false] at hs
      rcases List.mem_append.mp hs with hs | hs
      · exact hsess s hs
      · rw [List.mem_singleton.mp hs]
        simp
  | cons c rest ih =>
    intro prev current sessions hcur hsess s hs
    by_cases h : timeDiffMinutes prev c ≤ MAX_GAP_MINUTES
    · simp only [groupAux, if_pos h] at hs
      exact ih c (current ++ [c]) sessions (by simp) hsess s hs
    · simp only [groupAux, if_neg h] at hs
      refine ih c [c] (sessions ++ [current]) (by simp) ?_ s hs
      intro t ht
      rcases List.mem_append.mp ht with ht | ht
      · exact hsess t ht
      · simp only [List.mem_singleton] at ht
        subst ht; exact hcur

end EstimateCodingTime

namespace EstimateCodingTime

/-! ## C1: the grouper partitions the input -/

/-- C1: for every non-empty commit list, the sessions returned by
`group_commits_into_sessions` form a partition of the input: their
concatenation, in order, is exactly the input, and no session is empty. -/
theorem grouping_is_partition (commits : List CommitRecord) (hne : commits ≠ []) :
    (group_commits_into_sessions commits).flatten = commits ∧
      ∀ s ∈ group_commits_into_sessions commits, s ≠ [] := by
  cases commits with
  | nil => exact absurd rfl hne
  | cons c rest =>
    constructor
    · simpa [group_commits_into_sessions] using groupAux_join rest c [c] [] (by simp)
    · exact groupAux_ne_nil rest c [c] [] (by simp) (by simp)

/-- Witness for C1 at the spec's three-commit scenario. -/
theorem grouping_is_partition_witness :
    (group_commits_into_sessions
        [⟨0, "a", 50⟩, ⟨1000, "b", 10⟩, ⟨10000, "c", 5⟩]).flatten =
      [⟨0, "a", 50⟩, ⟨1000, "b", 10⟩, ⟨10000, "c", 5⟩] ∧
    ∀ s ∈ group_commits_into_sessions
        [⟨0, "a", 50⟩, ⟨1000, "b", 10⟩, ⟨10000, "c", 5⟩], s ≠ [] :=
  grouping_is_partition [⟨0, "a", 50⟩, ⟨1000, "b", 10⟩, ⟨10000, "c", 5⟩] (by simp)

/-! ## C9: a single commit yields a single singleton session -/

/-- C9: grouping a one-element commit list yields exactly one session holding
exactly that commit. -/
theorem single_commit_single_session (c : CommitRecord) :
    group_commits_into_sessions [c] = [[c]] := rfl

/-! ## C10: the estimator's empty-session guard -/

/-- C10: on an empty session the `if not session` guard returns `0`, making
`estimate_session_time` total over all session lists. -/
theorem estimate_empty_session : estimate_session_time [] = 0 := rfl

/-! ## C3: the estimation formula -/

/-- C3: on any non-empty session, `estimate_session_time` is exactly the span
from first to last commit in minutes plus the first commit's line count times
`TIME_PER_LINE_MINUTES` times `PRE_COMMIT_LINE_FACTOR`; on a one-commit session
the span term is zero and only the buffer remains. -/
theorem estimate_formula (first : CommitRecord) (rest : List CommitRecord) :
    estimate_session_time (first :: rest) =
      ((((first :: rest).getLast (List.cons_ne_nil first rest)).timestamp
          - first.timestamp : Int) : ℚ) / 60
        + (first.lines_changed : ℚ) * TIME_PER_LINE_MINUTES * PRE_COMMIT_LINE_FACTOR
    ∧ estimate_session_time [first] =
        (first.lines_changed : ℚ) * TIME_PER_LINE_MINUTES * PRE_COMMIT_LINE_FACTOR := by
  refine ⟨rfl, ?_⟩
  simp [estimate_session_time]

end EstimateCodingTime

namespace EstimateCodingTime

/-! ## C2: gap invariants of the grouping -/

/-- Running the loop preserves the gap invariants: sessions closed so far and
the current session have all internal gaps within the threshold, consecutive
closed sessions are separated by more than the threshold, and `prev` is the
last commit of the current session. -/
lemma groupAux_chain :
    ∀ (rest : List CommitRecord) (prev : CommitRecord) (current : List CommitRecord)
      (sessions : List (List CommitRecord)),
      current.getLast? = some prev →
      (∀ s ∈ sessions, List.Chain' withinGapOK s) →
      List.Chain' withinGapOK current →
      List.Chain' sessionBreakOK (sessions ++ [current]) →
      (∀ s ∈ groupAux prev current sessions rest, List.Chain' withinGapOK s) ∧
        List.Chain' sessionBreakOK (groupAux prev current sessions rest) := by
  intro rest
  induction rest with
  | nil =>
    intro prev current sessions hlast hsess hcur hbrk
    cases current with
    | nil => simp at hlast
    | cons a l =>
      constructor
      · intro s hs
        simp only [groupAux, List.isEmpty_cons, Bool.false_eq_true, if_false] at hs
        rcases List.mem_append.mp hs with hs | hs
        · exact hsess s hs
        · rw [List.mem_singleton.mp hs]; exact hcur
      · simpa only [groupAux, List.isEmpty_cons, Bool.false_eq_true, if_false] using hbrk
  | cons c rest ih =>
    intro prev current sessions hlast hsess hcur hbrk
    have hne : current ≠ [] := by
      intro h; rw [h] at hlast; simp at hlast
    by_cases hg : timeDiffMinutes prev c ≤ MAX_GAP_MINUTES
    · simp only [groupAux, if_pos hg]
      apply ih c (current ++ [c]) sessions (List.getLast?_concat current) hsess
      · refine List.chain'_append.mpr ⟨hcur, List.chain'_singleton c, ?_⟩
        intro x hx y hy
        rw [hlast] at hx
        have hx' : x = prev := (Option.some.inj hx).symm
        have hy' : y = c := (Option.some.inj hy).symm
        rw [hx', hy']
        exact hg
      · rcases List.chain'_append.mp hbrk with ⟨h1, _, h3⟩
        refine List.chain'_append.mpr ⟨h1, List.chain'_singleton _, ?_⟩
        intro x hx y hy
        have hy' : y = current ++ [c] := (Option.some.inj hy).symm
        subst hy'
        have hb := h3 x hx current rfl
        unfold sessionBreakOK at hb ⊢
        rwa [head?_append_of_ne_nil current [c] hne]
    · simp only [groupAux, if_neg hg]
      apply ih c [c] (sessions ++ [current]) rfl
      · intro s hs
        rcases List.mem_append.mp hs with hs | hs
        · exact hsess s hs
        · rw [List.mem_singleton.mp hs]; exact hcur
      · exact List.chain'_singleton c
      · refine List.chain'_append.mpr ⟨hbrk, List.chain'_singleton _, ?_⟩
        intro x hx y hy
        rw [List.getLast?_concat] at hx
        have hx' : x = current := (Option.some.inj hx).symm
        have hy' : y = [c] := (Option.some.inj hy).symm
        rw [hx', hy']
        unfold sessionBreakOK
        rw [hlast]
        show MAX_GAP_MINUTES < timeDiffMinutes prev c
        exact not_le.mp hg

/-- C2: on a chronologically ascending commit list, every session produced by
the grouper has all consecutive internal gaps at most `MAX_GAP_MINUTES`, and
the gap from the last commit of each session to the first commit of the next
session strictly exceeds `MAX_GAP_MINUTES`. -/
theorem session_gap_invariants (commits : List CommitRecord)
    (hasc : List.Chain' (fun a b => a.timestamp ≤ b.timestamp) commits) :
    (∀ s ∈ group_commits_into_sessions commits, List.Chain' withinGapOK s) ∧
      List.Chain' sessionBreakOK (group_commits_into_sessions commits) := by
  cases commits with
  | nil => simp [group_commits_into_sessions]
  | cons c rest =>
    exact groupAux_chain rest c [c] [] rfl (by simp) (List.chain'_singleton c)
      ((List.nil_append [[c]]) ▸ List.chain'_singleton [c])

end EstimateCodingTime

namespace EstimateCodingTime

/-! ## C6: the boundary comparison is inclusive -/

lemma prependFirst_append (x s : List CommitRecord) (ss G : List (List CommitRecord)) :
    prependFirst x ((s :: ss) ++ G) = prependFirst x (s :: ss) ++ G := rfl

/-- The current session can be split off the loop state: extra commits sitting
at the front of the current session are simply prepended onto the first
returned session. -/
lemma groupAux_consFirst :
    ∀ (rest : List CommitRecord) (prev : CommitRecord) (cur₁ cur₂ : List CommitRecord),
      cur₂ ≠ [] →
      groupAux prev (cur₁ ++ cur₂) [] rest = prependFirst cur₁ (groupAux prev cur₂ [] rest) := by
  intro rest
  induction rest with
  | nil =>
    intro prev cur₁ cur₂ h2
    cases cur₂ with
    | nil => exact absurd rfl h2
    | cons a l => simp [groupAux, prependFirst]
  | cons c rest ih =>
    intro prev cur₁ cur₂ h2
    by_cases hg : timeDiffMinutes prev c ≤ MAX_GAP_MINUTES
    · simp only [groupAux, if_pos hg]
      rw [List.append_assoc]
      exact ih c cur₁ (cur₂ ++ [c]) (by simp)
    · simp only [groupAux, if_neg hg]
      rw [groupAux_acc rest c [c] ([] ++ [cur₁ ++ cur₂]),
        groupAux_acc rest c [c] ([] ++ [cur₂])]
      simp [prependFirst]

/-- The first returned session starts with the current session's commits. -/
lemma groupAux_firstStarts :
    ∀ (rest : List CommitRecord) (prev a : CommitRecord) (cur : List CommitRecord),
      ∃ t ss, groupAux prev (a :: cur) [] rest = ((a :: cur) ++ t) :: ss := by
  intro rest
  induction rest with
  | nil => intro prev a cur; exact ⟨[], [], by simp [groupAux]⟩
  | cons c rest ih =>
    intro prev a cur
    by_cases hg : timeDiffMinutes prev c ≤ MAX_GAP_MINUTES
    · simp only [groupAux, if_pos hg]
      obtain ⟨t, ss, h⟩ := ih c a (cur ++ [c])
      refine ⟨[c] ++ t, ss, ?_⟩
      rw [show (a :: cur) ++ [c] = a :: (cur ++ [c]) from rfl, h]
      simp
    · simp only [groupAux, if_neg hg]
      rw [groupAux_acc rest c [c] ([] ++ [a :: cur])]
      exact ⟨[], groupAux c [c] [] rest, by simp⟩

/-- The sessions of a non-empty commit list start with its first commit. -/
lemma group_cons_shape (c : CommitRecord) (rest : List CommitRecord) :
    ∃ t ss, group_commits_into_sessions (c :: rest) = (c :: t) :: ss := by
  obtain ⟨t, ss, h⟩ := groupAux_firstStarts rest c c []
  exact ⟨t, ss, by simpa using h⟩

/-- A second commit within the threshold of the first joins the first session. -/
lemma group_cons_cons_of_le (c1 c2 : CommitRecord) (rest : List CommitRecord)
    (h : timeDiffMinutes c1 c2 ≤ MAX_GAP_MINUTES) :
    group_commits_into_sessions (c1 :: c2 :: rest) =
      prependFirst [c1] (group_commits_into_sessions (c2 :: rest)) := by
  show groupAux c1 [c1] [] (c2 :: rest) = _
  simp only [groupAux, if_pos h]
  exact groupAux_consFirst rest c2 [c1] [c2] (by simp)

/-- A second commit beyond the threshold leaves the first alone in its session. -/
lemma group_cons_cons_of_gt (c1 c2 : CommitRecord) (rest : List CommitRecord)
    (h : ¬ timeDiffMinutes c1 c2 ≤ MAX_GAP_MINUTES) :
    group_commits_into_sessions (c1 :: c2 :: rest) =
      [c1] :: group_commits_into_sessions (c2 :: rest) := by
  show groupAux c1 [c1] [] (c2 :: rest) = _
  simp only [groupAux, if_neg h]
  rw [groupAux_acc rest c2 [c2] ([] ++ [[c1]])]
  simp [group_commits_into_sessions]

end EstimateCodingTime

namespace EstimateCodingTime

/-- An above-threshold gap splits the grouping at exactly that point. -/
lemma group_split :
    ∀ (xs : List CommitRecord) (c1 c2 : CommitRecord) (ys : List CommitRecord),
      MAX_GAP_MINUTES < timeDiffMinutes c1 c2 →
      group_commits_into_sessions (xs ++ c1 :: c2 :: ys) =
        group_commits_into_sessions (xs ++ [c1]) ++
          group_commits_into_sessions (c2 :: ys) := by
  intro xs
  induction xs with
  | nil =>
    intro c1 c2 ys h
    rw [List.nil_append, group_cons_cons_of_gt c1 c2 ys (not_le.mpr h)]
    rfl
  | cons x xs ih =>
    intro c1 c2 ys h
    obtain ⟨a, A', B', hA, hB⟩ :
        ∃ a A' B', xs ++ c1 :: c2 :: ys = a :: A' ∧ xs ++ [c1] = a :: B' := by
      cases xs with
      | nil => exact ⟨c1, c2 :: ys, [], rfl, rfl⟩
      | cons u us => exact ⟨u, us ++ c1 :: c2 :: ys, us ++ [c1], rfl, rfl⟩
    by_cases hg : timeDiffMinutes x a ≤ MAX_GAP_MINUTES
    · have e1 : group_commits_into_sessions ((x :: xs) ++ c1 :: c2 :: ys)
          = prependFirst [x] (group_commits_into_sessions (xs ++ c1 :: c2 :: ys)) := by
        rw [List.cons_append, hA, group_cons_cons_of_le x a A' hg]
      have e2 : group_commits_into_sessions ((x :: xs) ++ [c1])
          = prependFirst [x] (group_commits_into_sessions (xs ++ [c1])) := by
        rw [List.cons_append, hB, group_cons_cons_of_le x a B' hg]
      obtain ⟨t, ss, hshape⟩ : ∃ t ss,
          group_commits_into_sessions (xs ++ [c1]) = (a :: t) :: ss := by
        rw [hB]; exact group_cons_shape a B'
      rw [e1, ih c1 c2 ys h, e2, hshape]
      rfl
    · have e1 : group_commits_into_sessions ((x :: xs) ++ c1 :: c2 :: ys)
          = [x] :: group_commits_into_sessions (xs ++ c1 :: c2 :: ys) := by
        rw [List.cons_append, hA, group_cons_cons_of_gt x a A' hg]
      have e2 : group_commits_into_sessions ((x :: xs) ++ [c1])
          = [x] :: group_commits_into_sessions (xs ++ [c1]) := by
        rw [List.cons_append, hB, group_cons_cons_of_gt x a B' hg]
      rw [e1, ih c1 c2 ys h, e2]
      rfl

/-- A within-threshold adjacent pair always lands in one common session. -/
lemma group_same_session_of_le :
    ∀ (xs : List CommitRecord) (c1 c2 : CommitRecord) (ys : List CommitRecord),
      timeDiffMinutes c1 c2 ≤ MAX_GAP_MINUTES →
      ∃ s ∈ group_commits_into_sessions (xs ++ c1 :: c2 :: ys), c1 ∈ s ∧ c2 ∈ s := by
  intro xs
  induction xs with
  | nil =>
    intro c1 c2 ys h
    obtain ⟨t, ss, hshape⟩ := group_cons_shape c2 ys
    refine ⟨c1 :: c2 :: t, ?_, by simp, by simp⟩
    rw [List.nil_append, group_cons_cons_of_le c1 c2 ys h, hshape]
    simp [prependFirst]
  | cons x xs ih =>
    intro c1 c2 ys h
    obtain ⟨s, hs, hc1, hc2⟩ := ih c1 c2 ys h
    obtain ⟨a, A', hA⟩ : ∃ a A', xs ++ c1 :: c2 :: ys = a :: A' := by
      cases xs with
      | nil => exact ⟨c1, c2 :: ys, rfl⟩
      | cons u us => exact ⟨u, us ++ c1 :: c2 :: ys, rfl⟩
    by_cases hg : timeDiffMinutes x a ≤ MAX_GAP_MINUTES
    · rw [List.cons_append, hA, group_cons_cons_of_le x a A' hg, ← hA]
      rcases hgroup : group_commits_into_sessions (xs ++ c1 :: c2 :: ys) with _ | ⟨s0, ss0⟩
      · rw [hgroup] at hs; simp at hs
      · rw [hgroup] at hs
        rcases List.mem_cons.mp hs with hs0 | hmem
        · subst hs0
          exact ⟨[x] ++ s, by simp [prependFirst], by simp [hc1], by simp [hc2]⟩
        · exact ⟨s, by simp [prependFirst, hmem], hc1, hc2⟩
    · rw [List.cons_append, hA, group_cons_cons_of_gt x a A' hg, ← hA]
      exact ⟨s, List.mem_cons_of_mem _ hs, hc1, hc2⟩

/-- C6: the boundary comparison is inclusive.  A pair of adjacent commits at a
gap of exactly `MAX_GAP_MINUTES` ends up in one common session; a gap strictly
above the threshold makes the second commit start a new session, splitting the
grouping at that point. -/
theorem threshold_boundary_inclusive (xs ys : List CommitRecord) (c1 c2 : CommitRecord) :
    (timeDiffMinutes c1 c2 = MAX_GAP_MINUTES →
        ∃ s ∈ group_commits_into_sessions (xs ++ c1 :: c2 :: ys), c1 ∈ s ∧ c2 ∈ s) ∧
      (MAX_GAP_MINUTES < timeDiffMinutes c1 c2 →
        group_commits_into_sessions (xs ++ c1 :: c2 :: ys) =
          group_commits_into_sessions (xs ++ [c1]) ++
            group_commits_into_sessions (c2 :: ys)) :=
  ⟨fun h => group_same_session_of_le xs c1 c2 ys (le_of_eq h),
   fun h => group_split xs c1 c2 ys h⟩

/-- Witness for C6: a 90-minute (5400-second) gap keeps two commits in one
session; a 91-minute gap splits them. -/
theorem threshold_boundary_inclusive_witness :
    (∃ s ∈ group_commits_into_sessions [⟨0, "a", 1⟩, ⟨5400, "b", 2⟩],
        (⟨0, "a", 1⟩ : CommitRecord) ∈ s ∧ (⟨5400, "b", 2⟩ : CommitRecord) ∈ s) ∧
      group_commits_into_sessions [⟨0, "a", 1⟩, ⟨5460, "c", 3⟩] =
        group_commits_into_sessions [⟨0, "a", 1⟩] ++
          group_commits_into_sessions [⟨5460, "c", 3⟩] :=
  ⟨(threshold_boundary_inclusive [] [] ⟨0, "a", 1⟩ ⟨5400, "b", 2⟩).1
      (by norm_num [timeDiffMinutes, MAX_GAP_MINUTES]),
   (threshold_boundary_inclusive [] [] ⟨0, "a", 1⟩ ⟨5460, "c", 3⟩).2
      (by norm_num [timeDiffMinutes, MAX_GAP_MINUTES])⟩

/-- Witness for C2 at the spec's three-commit scenario. -/
theorem session_gap_invariants_witness :
    (∀ s ∈ group_commits_into_sessions
        [⟨0, "a", 50⟩, ⟨1000, "b", 10⟩, ⟨10000, "c", 5⟩], List.Chain' withinGapOK s) ∧
      List.Chain' sessionBreakOK (group_commits_into_sessions
        [⟨0, "a", 50⟩, ⟨1000, "b", 10⟩, ⟨10000, "c", 5⟩]) :=
  session_gap_invariants [⟨0, "a", 50⟩, ⟨1000, "b", 10⟩, ⟨10000, "c", 5⟩]
    (by norm_num [List.chain'_cons])

end EstimateCodingTime

namespace EstimateCodingTime

/-! ## C7: non-negativity of the estimate -/

/-- In an ascending list the head's timestamp is at most the last's. -/
lemma chain'_timestamp_le_getLast :
    ∀ (l : List CommitRecord) (a : CommitRecord),
      List.Chain' (fun x y => x.timestamp ≤ y.timestamp) (a :: l) →
      a.timestamp ≤ ((a :: l).getLast (List.cons_ne_nil a l)).timestamp := by
  intro l
  induction l with
  | nil => intro a _; exact le_rfl
  | cons b l ih =>
    intro a hch
    rw [List.chain'_cons] at hch
    exact le_trans hch.1 (ih b hch.2)

/-- C7: on a non-empty session in ascending timestamp order,
`estimate_session_time` is non-negative (the span is non-negative and the
line-count buffer is a product of non-negative constants). -/
theorem estimate_session_time_nonneg (s : List CommitRecord) (hne : s ≠ [])
    (hasc : List.Chain' (fun a b => a.timestamp ≤ b.timestamp) s) :
    0 ≤ estimate_session_time s := by
  cases s with
  | nil => exact absurd rfl hne
  | cons first rest =>
    have hle := chain'_timestamp_le_getLast rest first hasc
    simp only [estimate_session_time]
    apply add_nonneg
    · apply div_nonneg _ (by norm_num)
      have h0 : (0 : ℤ) ≤
          ((first :: rest).getLast (List.cons_ne_nil first rest)).timestamp
            - first.timestamp := sub_nonneg.mpr hle
      exact_mod_cast h0
    · refine mul_nonneg (mul_nonneg (by positivity) ?_) ?_
      · norm_num [TIME_PER_LINE_MINUTES]
      · norm_num [PRE_COMMIT_LINE_FACTOR]

/-- Witness for C7 at a concrete two-commit session. -/
theorem estimate_session_time_nonneg_witness :
    0 ≤ estimate_session_time [⟨0, "a", 50⟩, ⟨1000, "b", 10⟩] :=
  estimate_session_time_nonneg [⟨0, "a", 50⟩, ⟨1000, "b", 10⟩] (by simp)
    (by norm_num [List.chain'_cons])

/-! ## C5: the total is the sum of the per-session estimates -/

/-- The session loop of `main` accumulates exactly the sum of the per-session
estimates. -/
lemma sessionReport_total :
    ∀ (sessions : List (List CommitRecord)) (i : Nat) (t : ℚ),
      (sessionReport i t sessions).2 = t + (sessions.map estimate_session_time).sum := by
  intro sessions
  induction sessions with
  | nil => intro i t; simp [sessionReport]
  | cons s ss ih =>
    intro i t
    simp only [sessionReport, List.map_cons, List.sum_cons]
    rw [ih]
    ring

/-- C5: the total minutes computed by `main`'s loop equal the sum of
`estimate_session_time` over the sessions, each counted once, and the reported
hours value is that total divided by 60. -/
theorem total_equals_sum_of_sessions (sessions : List (List CommitRecord)) :
    (sessionReport 1 0 sessions).2 = (sessions.map estimate_session_time).sum ∧
      ∀ commits : List CommitRecord, commits ≠ [] →
        OutputLine.totalHours
            (((group_commits_into_sessions commits).map estimate_session_time).sum / 60)
          ∈ main commits := by
  constructor
  · simpa using sessionReport_total sessions 1 0
  · intro commits hne
    have hr : (sessionReport 1 0 (group_commits_into_sessions commits)).2
        = ((group_commits_into_sessions commits).map estimate_session_time).sum := by
      simpa using sessionReport_total (group_commits_into_sessions commits) 1 0
    cases commits with
    | nil => exact absurd rfl hne
    | cons c rest =>
      simp only [main, List.isEmpty_cons, Bool.false_eq_true, if_false]
      rw [hr]
      simp

/-- Witness for C5 at the spec's three-commit scenario grouped into two
sessions. -/
theorem total_equals_sum_of_sessions_witness :
    (sessionReport 1 0 [[⟨0, "a", 50⟩, ⟨1000, "b", 10⟩], [⟨10000, "c", 5⟩]]).2 =
        (([[⟨0, "a", 50⟩, ⟨1000, "b", 10⟩], [⟨10000, "c", 5⟩]] :
            List (List CommitRecord)).map estimate_session_time).sum ∧
      OutputLine.totalHours
          (((group_commits_into_sessions
                [⟨0, "a", 50⟩, ⟨1000, "b", 10⟩, ⟨10000, "c", 5⟩]).map
              estimate_session_time).sum / 60)
        ∈ main [⟨0, "a", 50⟩, ⟨1000, "b", 10⟩, ⟨10000, "c", 5⟩] :=
  ⟨(total_equals_sum_of_sessions [[⟨0, "a", 50⟩, ⟨1000, "b", 10⟩], [⟨10000, "c", 5⟩]]).1,
   (total_equals_sum_of_sessions [[⟨0, "a", 50⟩, ⟨1000, "b", 10⟩], [⟨10000, "c", 5⟩]]).2
      [⟨0, "a", 50⟩, ⟨1000, "b", 10⟩, ⟨10000, "c", 5⟩] (by simp)⟩

/-! ## C8: empty history early exit -/

/-- C8: with no commits, `main` prints the gathering banner and
`"No commit data found."` and nothing else: no count, session, or summary
lines. -/
theorem empty_history_early_exit :
    main [] = [OutputLine.gathering, OutputLine.noData] := rfl

end EstimateCodingTime

namespace EstimateCodingTime

/-! ## C4: numstat parsing of non-numeric count fields

The source zeroes each non-numeric count field independently
(`added = int(added_str) if added_str.isdigit() else 0`, likewise for
`removed`) and then adds both, so a line whose fields are `3`, `-`, `x.png`
contributes `3`, not `0`: only a line with both fields non-numeric (the
binary-file placeholder) contributes zero in total. -/

/-- Counterexample to C4 as stated: on the three-field line `"3\t-\tx.png"`
one count field fails to parse, yet the line contributes `3`, not `0`. -/
theorem numstat_mixed_line_counterexample :
    lineContribution "3\t-\tx.png" = some 3 ∧ (3 : Nat) ≠ 0 := by
  constructor
  · decide
  · decide

/-- C4 as amended: on a three-tab-separated-field statistics line each count
field contributes its integer value when it parses as a decimal numeral and
zero otherwise — so the binary placeholder line, with both fields non-numeric,
contributes zero in total — and any line that does not split into exactly
three fields is silently ignored (`lineContribution` is a total function, so
no input raises an error). -/
theorem numstat_field_policy :
    (∀ (line : String) (a b p : List Char),
        pySplitChar '\t' (pyStrip line.toList) = [a, b, p] →
        lineContribution line =
          some ((if pyIsDigit a then digitsVal a else 0) +
            (if pyIsDigit b then digitsVal b else 0))) ∧
      ∀ line : String, (pySplitChar '\t' (pyStrip line.toList)).length ≠ 3 →
        lineContribution line = none := by
  constructor
  · intro line a b p h
    unfold lineContribution
    rw [h]
  · intro line h
    unfold lineContribution
    split
    · rename_i a b p heq
      rw [heq] at h
      simp at h
    · rfl

/-- Witness for the amended C4: the binary placeholder line contributes zero;
a line with fewer than three fields is ignored. -/
theorem numstat_field_policy_witness :
    lineContribution "-\t-\tbinary.png" = some 0 ∧ lineContribution "junk" = none := by
  constructor
  · have h := numstat_field_policy.1 "-\t-\tbinary.png" ['-'] ['-']
      "binary.png".toList (by decide)
    rw [h]
    decide
  · exact numstat_field_policy.2 "junk" (by decide)

end EstimateCodingTime
